import Mathlib

/-!
Verification development for a parallel type-checking scheduler and its
pluggable metadata store.

The embedding covers:
* `mypy/metastore.py`: the filesystem-backed and relational (PostgreSQL-backed,
  historically named `SqliteMetadataStore`) metadata stores;
* `mypy-pre.py` / `mypy_pre2.py`: the greedy size-balanced batch fill and the
  accumulating layer scheduler;
* `z.py`: the dependency-agnostic `chunk_array` splitter.

Timestamps (Python floats from `time.time()` / `os.path.getmtime`) are
modelled as exact rationals; Python's `int(x)` conversion is truncation
toward zero, modelled by `pyTrunc`.  Fallible operations return
`Except StoreErr`; a Python `FileNotFoundError` is `StoreErr.notFound`.
-/

namespace MypySpec

/-- Python `int(x)` applied to a (rational-valued) timestamp: truncation
toward zero. -/
def pyTrunc (q : ℚ) : ℤ := if 0 ≤ q then ⌊q⌋ else ⌈q⌉

/-- The error a metadata-store operation can signal for an absent entry
(Python `FileNotFoundError`; the spec calls it `NotFound`). -/
inductive StoreErr where
  | notFound
  deriving DecidableEq

/-- One metadata entry: the text blob and its timestamp (`metastore.py`:
a file's contents and mtime, or the `data`/`mtime` columns of the `files`
table). -/
structure MetaEntry where
  data : String
  mtime : ℚ
  deriving DecidableEq

/-- The backing key-value state shared by both store models: an association
list from entry names to entries (at most one binding per name is maintained
by `Table.upsert`). -/
abbrev Table := List (String × MetaEntry)

/-- Look up the entry bound to `n`, if any. -/
def Table.lookupName : Table → String → Option MetaEntry
  | [], _ => none
  | (k, e) :: t, n => if k = n then some e else Table.lookupName t n

/-- Drop every binding for `n` (SQL `DELETE FROM files WHERE path = n`;
filesystem `os.remove`). -/
def Table.eraseName : Table → String → Table
  | [], _ => []
  | (k, e) :: t, n =>
    if k = n then Table.eraseName t n else (k, e) :: Table.eraseName t n

/-- Bind `n` to `e`, replacing any previous binding (SQL
`INSERT ... ON CONFLICT (path) DO UPDATE`; filesystem atomic
`os.replace`). -/
def Table.upsert (t : Table) (n : String) (e : MetaEntry) : Table :=
  (n, e) :: Table.eraseName t n

/-- Number of bindings for `n` (used to state that a name maps to at most
one entry). -/
def Table.countName : Table → String → Nat
  | [], _ => 0
  | (k, _) :: t, n => (if k = n then 1 else 0) + Table.countName t n

/-! ## Filesystem metadata store (`FilesystemMetadataStore`)

`cacheDir` models `cache_dir_prefix`: the constructor stores `none` when the
configured prefix starts with `os.devnull`, and every operation first runs
the Python truthiness test `not self.cache_dir_prefix`, which also treats an
empty-string root as null (`nullRoot`). -/

/-- The value of `os.devnull` on the POSIX systems the program targets. -/
def osDevnull : String := "/dev/null"

/-- State of `FilesystemMetadataStore`: the (possibly null) root and the
entries currently on disk under it. -/
structure FilesystemMetadataStore where
  cacheDir : Option String
  files : Table
  deriving DecidableEq

namespace FilesystemMetadataStore

/-- Constructor `FilesystemMetadataStore.__init__`: a prefix starting with `os.devnull`
is replaced by `None`; the store starts over whatever files already exist
(`t` for a pre-existing cache, `[]` for a fresh one). -/
def init (cacheDirArg : String) (t : Table) : FilesystemMetadataStore :=
  if osDevnull.isPrefixOf cacheDirArg then ⟨none, t⟩ else ⟨some cacheDirArg, t⟩

/-- The guard `not self.cache_dir_prefix`: true for `None` and for the empty
string (both falsy in Python). -/
def nullRoot (s : FilesystemMetadataStore) : Bool :=
  match s.cacheDir with
  | none => true
  | some p => p = ""

/-- Method `getmtime`: raises for a null root or a missing file; otherwise returns
`int(os.path.getmtime(path))` — the stored mtime truncated to an integer. -/
def getmtime (s : FilesystemMetadataStore) (name : String) : Except StoreErr ℚ :=
  if s.nullRoot then .error .notFound
  else
    match Table.lookupName s.files name with
    | none => .error .notFound
    | some e => .ok ((pyTrunc e.mtime : ℤ) : ℚ)

/-- Method `read`: raises for a null root or a missing file; otherwise returns the
file's contents. -/
def read (s : FilesystemMetadataStore) (name : String) : Except StoreErr String :=
  if s.nullRoot then .error .notFound
  else
    match Table.lookupName s.files name with
    | none => .error .notFound
    | some e => .ok e.data

/-- Method `write`: returns `False` for a null root without touching anything;
otherwise writes `data` to a temporary file, atomically renames it over the
destination, and applies `mtime` via `os.utime` when given (otherwise the
file keeps its write-time mtime, modelled by the clock argument `now`).
Returns the success flag together with the updated store. -/
def write (s : FilesystemMetadataStore) (name data : String) (mtime : Option ℚ)
    (now : ℚ) : Bool × FilesystemMetadataStore :=
  if s.nullRoot then (false, s)
  else (true, { s with files := Table.upsert s.files name ⟨data, mtime.getD now⟩ })

/-- Method `remove`: raises for a null root; otherwise `os.remove`, which raises
`FileNotFoundError` when the file does not exist and deletes it when it
does. -/
def remove (s : FilesystemMetadataStore) (name : String) :
    Except StoreErr FilesystemMetadataStore :=
  if s.nullRoot then .error .notFound
  else
    match Table.lookupName s.files name with
    | none => .error .notFound
    | some _ => .ok { s with files := Table.eraseName s.files name }

end FilesystemMetadataStore

/-! ## Single-precision (binary32 / PostgreSQL `REAL`) rounding

The relational store's schema declares `mtime REAL` — in PostgreSQL a
4-byte IEEE-754 single-precision float — so an inserted mtime is rounded
to the nearest binary32 value (ties to even) before being stored.  Reading
the column back widens float4 to a Python double exactly, so `getmtime`
returns the rounded value itself.  `float4Round` models that rounding on
exact rationals: a binary32 significand has 24 bits, so values in the
binade `[2^e, 2^(e+1))` are spaced `2^(e-23)` apart, with `e` clamped at
-126 (below which the subnormal spacing `2^-149` applies).  Overflow to
infinity is not modelled (PostgreSQL rejects out-of-range reals, and
timestamps lie well inside the normal range). -/

/-- Two to an integer power, as an exact rational. -/
def pow2z (e : ℤ) : ℚ :=
  if 0 ≤ e then ((2 ^ e.toNat : ℕ) : ℚ) else ((2 ^ (-e).toNat : ℕ) : ℚ)⁻¹

/-- Round a rational to the nearest integer, ties to even. -/
def roundHalfEven (q : ℚ) : ℤ :=
  if q - ⌊q⌋ < 1/2 then ⌊q⌋
  else if (1 : ℚ)/2 < q - ⌊q⌋ then ⌊q⌋ + 1
  else if 2 ∣ ⌊q⌋ then ⌊q⌋ else ⌊q⌋ + 1

/-- Scan the exponents `fuel - 126, ..., -125` downward for the largest `e`
with `2^e ≤ a`; `-126` (the subnormal binade) when `a` is below all of
them. -/
def expScan (a : ℚ) : ℕ → ℤ
  | 0 => -126
  | f + 1 => if pow2z ((f : ℤ) - 125) ≤ a then (f : ℤ) - 125 else expScan a f

/-- The binary32 binade exponent of a positive magnitude `a`: the largest
`e` in `[-125, 127]` with `2^e ≤ a`, and `-126` below `2^-125`. -/
def float4Exp (a : ℚ) : ℤ := expScan a 253

/-- Round an exact rational to the nearest IEEE-754 binary32 (PostgreSQL
`REAL` / float4) value, ties to even: the magnitude is rounded to the
nearest multiple of the binade's spacing `2^(float4Exp |q| - 23)`. -/
def float4Round (q : ℚ) : ℚ :=
  if q = 0 then 0
  else
    (if q < 0 then (-1 : ℚ) else 1) *
      (roundHalfEven (|q| / pow2z (float4Exp |q| - 23)) : ℚ) *
        pow2z (float4Exp |q| - 23)

/-! ## Relational metadata store (`SqliteMetadataStore`)

Despite its name the class talks to PostgreSQL through `psycopg2`; the
`files` table has `path` as primary key with `mtime REAL` and `data TEXT`
columns, so its state is the same `Table` abstraction, except that a stored
mtime has passed through the `REAL` column's binary32 rounding
(`float4Round`). -/

/-- State of `SqliteMetadataStore`: the rows of the `files` table. -/
structure SqliteMetadataStore where
  files : Table
  deriving DecidableEq

namespace SqliteMetadataStore

/-- Method `getmtime`: `SELECT mtime FROM files WHERE path = name`; raises when no
row matches, otherwise returns the stored column value — the float4-rounded
mtime the write deposited (`float4Round`), which widens to the double the
caller receives exactly. -/
def getmtime (s : SqliteMetadataStore) (name : String) : Except StoreErr ℚ :=
  match Table.lookupName s.files name with
  | none => .error .notFound
  | some e => .ok e.mtime

/-- Method `read`: `SELECT data FROM files WHERE path = name`; raises when no row
matches. -/
def read (s : SqliteMetadataStore) (name : String) : Except StoreErr String :=
  match Table.lookupName s.files name with
  | none => .error .notFound
  | some e => .ok e.data

/-- Method `write`: substitutes `time.time()` (the clock argument `now`) for an
omitted mtime, then upserts the row; the `mtime REAL` column stores the
binary32 rounding (`float4Round`) of the supplied value. The
`psycopg2.Error` branch (transport or constraint failure) is outside the
model, so the write succeeds. -/
def write (s : SqliteMetadataStore) (name data : String) (mtime : Option ℚ)
    (now : ℚ) : Bool × SqliteMetadataStore :=
  (true, ⟨Table.upsert s.files name ⟨data, float4Round (mtime.getD now)⟩⟩)

/-- Method `remove`: `DELETE FROM files WHERE path = name`. The statement succeeds
whether or not a row matches — no exception is raised for a missing entry,
so the result is always `Except.ok`. -/
def remove (s : SqliteMetadataStore) (name : String) :
    Except StoreErr SqliteMetadataStore :=
  .ok ⟨Table.eraseName s.files name⟩

end SqliteMetadataStore

/-! ## Greedy size-balanced batch fill

From the `__main__` block of `mypy-pre.py` (lines 50-66) and `process_layer`
of `mypy_pre2.py` (lines 54-68) — the two are the same loop.  A batch is the
list of units appended to it together with the running size counter
`commands[append_idx][1]` (the source appends only the unit's path
`paths[i]` while adding `sizes[i]` to the counter; the model keeps the
`(path, size)` pair in the batch so a batch's cost is visible in its
contents).  The source's `commands[append_idx]` indexing raises `IndexError`
when `append_idx` runs past the last batch; the model returns `none` there.
The two accesses per iteration (the `>= target` test, then the append at the
possibly advanced index) are modelled by the two `[·]?` matches. -/

def fillLoop {α : Type} (target : Nat) :
    List (α × Nat) → List (List (α × Nat) × Nat) → Nat →
      Option (List (List (α × Nat) × Nat))
  | [], cmds, _ => some cmds
  | (p, sz) :: rest, cmds, idx =>
    match cmds[idx]? with
    | none => none
    | some c0 =>
      if target ≤ c0.2 then
        match cmds[idx + 1]? with
        | none => none
        | some c =>
          fillLoop target rest (cmds.set (idx + 1) (c.1 ++ [(p, sz)], c.2 + sz))
            (idx + 1)
      else
        fillLoop target rest (cmds.set idx (c0.1 ++ [(p, sz)], c0.2 + sz)) idx

/-- Source `target_size = math.ceil(sum(sizes)/num_procs)`: exact ceiling division
(the source divides exactly representable machine integers). -/
def targetSize {α : Type} (units : List (α × Nat)) (num_batches : Nat) : Nat :=
  ((units.map Prod.snd).sum + num_batches - 1) / num_batches

/-- The greedy fill: `num_batches` batches initialized empty
(`commands.append([["mypy"], 0])` — the `"mypy"` argv sentinel is not part
of the batch contents), filled by the `append_idx` loop starting at batch
0. -/
def greedy_fill {α : Type} (units : List (α × Nat)) (num_batches : Nat) :
    Option (List (List (α × Nat) × Nat)) :=
  fillLoop (targetSize units num_batches) units
    (List.replicate num_batches ([], 0)) 0

/-- Source `submit_commands = [cmd[0] for cmd in commands if len(cmd[0]) > 1]`:
drop the batches that received no unit (`len > 1` counts the `"mypy"`
sentinel). -/
def submitBatches {α : Type} (cmds : List (List (α × Nat) × Nat)) :
    List (List (α × Nat)) :=
  (cmds.map Prod.fst).filter (fun b => !b.isEmpty)

/-- The largest single-unit cost of the input (0 for no units). -/
def maxCost {α : Type} (units : List (α × Nat)) : Nat :=
  (units.map Prod.snd).foldr max 0

/-- From `mypy-pre.py` line 50: `num_procs = 8` — a constant, independent of how
many units are being partitioned. -/
def mypy_pre_num_procs (_numUnits : Nat) : Nat := 8

/-- From `mypy_pre2.py` line 54: `num_procs = min(16, len(paths))`. -/
def process_layer_num_procs (numUnits : Nat) : Nat := min 16 numUnits

/-! ## Accumulating scheduler

From the `__main__` accumulation loop of `mypy_pre2.py` (lines 99-132):
walk the layers in order, union each layer's units (`curr_inters`), flush
through `process_layer` once the pending set holds at least 16 distinct
units, clear it, and flush any non-empty remainder after the last layer.
The loop is sequential (each `process_layer` call returns before the next
layer is examined), so the model is the list of pending sets flushed, in
flush order.  The source hardcodes the threshold 16
(`accumulationThreshold`); the model takes it as a parameter. -/

def accumulationThreshold : Nat := 16

/-- The union of a list of unit sets. -/
def unionList {α : Type} [DecidableEq α] (l : List (Finset α)) : Finset α :=
  l.foldr (· ∪ ·) ∅

/-- One scheduling run: returns the pending sets dispatched, in order.
`if pending = ∅` mirrors the final `if len(curr_inters) > 0` guard. -/
def accumLoop {α : Type} [DecidableEq α] (threshold : Nat) :
    List (Finset α) → Finset α → List (Finset α)
  | [], pending => if pending = ∅ then [] else [pending]
  | layer :: rest, pending =>
    if threshold ≤ (pending ∪ layer).card then
      (pending ∪ layer) :: accumLoop threshold rest ∅
    else
      accumLoop threshold rest (pending ∪ layer)

/-! ## Dependency-agnostic chunking (`z.py` `chunk_array`)

`random.shuffle(b)` produces a permutation of the input; the model takes
the shuffled list `b` as a parameter, with the permutation hypothesis
stated in the theorems.  A Python slice `b[s:e]` is `(b.drop s).take
(e - s)`. -/

/-- The slice boundary `i * k + min(i, m)` with `k, m = divmod(len, n)`. -/
def chunkBound (len n i : Nat) : Nat := i * (len / n) + min i (len % n)

/-- Function `chunk_array`: split the (shuffled) list into `n` contiguous slices
`b[i*k + min(i, m) : (i+1)*k + min(i+1, m)]` for `i in range(n)`. -/
def chunk_array {α : Type} (b : List α) (n : Nat) : List (List α) :=
  (List.range n).map (fun i =>
    (b.drop (chunkBound b.length n i)).take
      (chunkBound b.length n (i + 1) - chunkBound b.length n i))

/-! ## Theorems: association-table and store basics -/

theorem Table.lookupName_upsert (t : Table) (n : String) (e : MetaEntry) :
    Table.lookupName (Table.upsert t n e) n = some e := by
  simp [Table.upsert, Table.lookupName]

theorem Table.lookupName_eraseName (t : Table) (n : String) :
    Table.lookupName (Table.eraseName t n) n = none := by
  induction t with
  | nil => rfl
  | cons p t ih =>
    obtain ⟨k, e⟩ := p
    by_cases hk : k = n
    · simp [Table.eraseName, hk, ih]
    · simp [Table.eraseName, Table.lookupName, hk, ih]

theorem Table.countName_eraseName (t : Table) (n : String) :
    Table.countName (Table.eraseName t n) n = 0 := by
  induction t with
  | nil => rfl
  | cons p t ih =>
    obtain ⟨k, e⟩ := p
    by_cases hk : k = n
    · simp [Table.eraseName, hk, ih]
    · simp [Table.eraseName, Table.countName, hk, ih]

theorem Table.countName_upsert (t : Table) (n : String) (e : MetaEntry) :
    Table.countName (Table.upsert t n e) n = 1 := by
  simp [Table.upsert, Table.countName, Table.countName_eraseName]

theorem Table.eraseName_idem (t : Table) (n : String) :
    Table.eraseName (Table.eraseName t n) n = Table.eraseName t n := by
  induction t with
  | nil => rfl
  | cons p t ih =>
    obtain ⟨k, e⟩ := p
    by_cases hk : k = n
    · simp [Table.eraseName, hk, ih]
    · simp [Table.eraseName, hk, ih]

theorem pow2z_eq_zpow (e : ℤ) : pow2z e = (2 : ℚ) ^ e := by
  unfold pow2z
  rcases e with n | n
  · simp only [Int.ofNat_eq_natCast]
    rw [if_pos (Int.ofNat_nonneg n), Int.toNat_ofNat, zpow_natCast]
    push_cast
    ring
  · rw [if_neg (Int.negSucc_lt_zero n).not_le]
    show ((2 ^ (n + 1) : ℕ) : ℚ)⁻¹ = (2 : ℚ) ^ Int.negSucc n
    rw [zpow_negSucc]
    push_cast
    ring

theorem pow2z_mono {e1 e2 : ℤ} (h : e1 ≤ e2) : pow2z e1 ≤ pow2z e2 := by
  rw [pow2z_eq_zpow, pow2z_eq_zpow]
  exact zpow_le_zpow_right₀ (by norm_num) h

theorem expScan_eq (a : ℚ) (e : ℤ) (he : -125 ≤ e) (hlo : pow2z e ≤ a)
    (hhi : a < pow2z (e + 1)) :
    ∀ f : ℕ, e + 126 ≤ (f : ℤ) → expScan a f = e := by
  intro f
  induction f with
  | zero =>
    intro h
    exfalso
    omega
  | succ f ih =>
    intro h
    show (if pow2z ((f : ℤ) - 125) ≤ a then (f : ℤ) - 125 else expScan a f) = e
    by_cases hc : (f : ℤ) - 125 = e
    · rw [hc, if_pos hlo]
    · have hgt : e + 1 ≤ (f : ℤ) - 125 := by omega
      rw [if_neg (not_le.2 (lt_of_lt_of_le hhi (pow2z_mono hgt)))]
      exact ih (by omega)

theorem float4Exp_eq (a : ℚ) (e : ℤ) (he1 : -125 ≤ e) (he2 : e ≤ 127)
    (hlo : pow2z e ≤ a) (hhi : a < pow2z (e + 1)) : float4Exp a = e :=
  expScan_eq a e he1 hlo hhi 253 (by omega)

/-- Evaluation scheme for `float4Round` at a concrete positive rational:
exhibit the binade exponent and the rounded significand. -/
theorem float4Round_eval (q : ℚ) (e r : ℤ) (hq : 0 < q) (he1 : -125 ≤ e)
    (he2 : e ≤ 127) (hlo : pow2z e ≤ q) (hhi : q < pow2z (e + 1))
    (hr : roundHalfEven (q / pow2z (e - 23)) = r) :
    float4Round q = (r : ℚ) * pow2z (e - 23) := by
  unfold float4Round
  rw [if_neg hq.ne', abs_of_pos hq, float4Exp_eq q e he1 he2 hlo hhi, hr,
    if_neg (not_lt.2 hq.le), one_mul]

theorem roundHalfEven_intCast (z : ℤ) : roundHalfEven (z : ℚ) = z := by
  unfold roundHalfEven
  rw [Int.floor_intCast]
  norm_num

theorem roundHalfEven_eq_floor (q : ℚ) (h : q - ⌊q⌋ < 1/2) :
    roundHalfEven q = ⌊q⌋ := by
  unfold roundHalfEven
  rw [if_pos h]

/-- 456 is exactly representable in binary32 (binade `[2^8, 2^9)`, spacing
`2^-15`). -/
theorem float4Round_456 : float4Round 456 = 456 := by
  have h3 : pow2z ((8 : ℤ) - 23) = (32768 : ℚ)⁻¹ := by simp [pow2z]
  have hr : roundHalfEven ((456 : ℚ) / pow2z ((8 : ℤ) - 23)) = 14942208 := by
    rw [h3]
    have hd : (456 : ℚ) / (32768 : ℚ)⁻¹ = ((14942208 : ℤ) : ℚ) := by norm_num
    rw [hd, roundHalfEven_intCast]
  have hv := float4Round_eval 456 8 14942208 (by norm_num) (by norm_num)
    (by norm_num) (by simp [pow2z]; norm_num) (by simp [pow2z]; norm_num) hr
  rw [hv, h3]
  norm_num

/-- 2^25 + 1 = 33554433 is not representable in binary32: its binade
`[2^25, 2^26)` has spacing 4, and rounding ties-to-even sends 33554433
(1/4 above 2^25) down to 33554432. -/
theorem float4Round_33554433 : float4Round 33554433 = 33554432 := by
  have h3 : pow2z ((25 : ℤ) - 23) = 4 := by simp [pow2z]
  have hf : ⌊(33554433 / 4 : ℚ)⌋ = 8388608 := by
    rw [Int.floor_eq_iff]
    constructor <;> norm_num
  have hr : roundHalfEven ((33554433 : ℚ) / pow2z ((25 : ℤ) - 23)) = 8388608 := by
    rw [h3, roundHalfEven_eq_floor _ (by rw [hf]; norm_num), hf]
  have hv := float4Round_eval 33554433 25 8388608 (by norm_num) (by norm_num)
    (by norm_num) (by simp [pow2z]; norm_num) (by simp [pow2z]; norm_num) hr
  rw [hv, h3]
  norm_num

theorem FilesystemMetadataStore.nullRoot_setFiles (s : FilesystemMetadataStore)
    (t : Table) : ({ s with files := t } : FilesystemMetadataStore).nullRoot = s.nullRoot :=
  rfl

theorem pyTrunc_intCast (z : ℤ) : pyTrunc (z : ℚ) = z := by
  unfold pyTrunc
  split <;> simp

/-- C2 counterexample: on the relational store with no entry named
"m.py", `remove("m.py")` does not raise `NotFound` — the `DELETE` simply
matches no row — contradicting the claim that `remove` of a non-existent
name raises `NotFound` in the relational variant as well. -/
theorem sqlite_remove_missing_no_error :
    Table.lookupName (SqliteMetadataStore.mk []).files "m.py" = none ∧
    (SqliteMetadataStore.mk []).remove "m.py" ≠ Except.error StoreErr.notFound := by
  constructor
  · rfl
  · simp [SqliteMetadataStore.remove]

/-- C2 (amended): for a missing name, `read` and `getmtime` raise `NotFound`
in both variants, and `remove` raises `NotFound` in the filesystem variant
(non-null root); the relational variant's `remove` instead returns normally
even when no entry exists. -/
theorem metastore_notFound_contract
    (sf : FilesystemMetadataStore) (sq : SqliteMetadataStore) (name : String)
    (hroot : sf.nullRoot = false)
    (hf : Table.lookupName sf.files name = none)
    (hq : Table.lookupName sq.files name = none) :
    sf.read name = .error .notFound ∧
    sf.getmtime name = .error .notFound ∧
    sf.remove name = .error .notFound ∧
    sq.read name = .error .notFound ∧
    sq.getmtime name = .error .notFound ∧
    ∃ sq2, sq.remove name = .ok sq2 := by
  refine ⟨?_, ?_, ?_, ?_, ?_, ⟨_, rfl⟩⟩ <;>
    simp [FilesystemMetadataStore.read, FilesystemMetadataStore.getmtime,
      FilesystemMetadataStore.remove, SqliteMetadataStore.read,
      SqliteMetadataStore.getmtime, hroot, hf, hq]

theorem metastore_notFound_contract_witness :
    (FilesystemMetadataStore.mk (some "c") []).remove "a" = .error .notFound :=
  (metastore_notFound_contract (FilesystemMetadataStore.mk (some "c") [])
    (SqliteMetadataStore.mk []) "a" rfl rfl rfl).2.2.1

/-- C3 counterexample: a successful `write` followed by `getmtime` fails to
return exactly the written mtime in either variant.  Filesystem (root
"cache"): writing mtime 247/2 = 123.5 reads back as 123 — the source
truncates with `int(os.path.getmtime(...))`.  Relational: writing the
integral mtime 33554433 = 2^25 + 1 reads back as 33554432 — the `REAL`
column rounds it to binary32. -/
theorem getmtime_inexact_roundtrip :
    (((FilesystemMetadataStore.mk (some "cache") []).write "a.py" "d"
        (some (247/2)) 0).1 = true ∧
      ((FilesystemMetadataStore.mk (some "cache") []).write "a.py" "d"
        (some (247/2)) 0).2.getmtime "a.py" = .ok ((123 : ℤ) : ℚ) ∧
      ((123 : ℤ) : ℚ) ≠ (247/2 : ℚ)) ∧
    (((SqliteMetadataStore.mk []).write "m.py" "x" (some 33554433) 0).1
        = true ∧
      ((SqliteMetadataStore.mk []).write "m.py" "x"
        (some 33554433) 0).2.getmtime "m.py" = .ok 33554432 ∧
      (33554432 : ℚ) ≠ (33554433 : ℚ)) := by
  refine ⟨⟨rfl, ?_, by norm_num⟩, rfl, ?_, by norm_num⟩
  · have h2 : pyTrunc (247/2 : ℚ) = 123 := by
      unfold pyTrunc
      rw [if_pos (by norm_num)]
      rw [Int.floor_eq_iff]
      constructor <;> norm_num
    simp [FilesystemMetadataStore.write, FilesystemMetadataStore.getmtime,
      FilesystemMetadataStore.nullRoot, Table.lookupName_upsert, h2]
  · have h4 : ((SqliteMetadataStore.mk []).write "m.py" "x"
        (some 33554433) 0).2.getmtime "m.py" = .ok (float4Round 33554433) := by
      simp [SqliteMetadataStore.write, SqliteMetadataStore.getmtime,
        Table.lookupName_upsert]
    rw [h4, float4Round_33554433]

/-- C3 (amended): after a successful `write(name, data, mtime)`, the
relational store's `getmtime(name)` returns the binary32 (`REAL` column)
rounding of the written mtime — exactly the written mtime whenever that
value is representable in binary32 — and the rounding of the
backend-assigned clock value when mtime was omitted; the filesystem store's
`getmtime(name)` returns the written mtime truncated toward zero to an
integer (hence exactly the written mtime whenever it is an integer). -/
theorem metastore_write_getmtime
    (sf : FilesystemMetadataStore) (sq : SqliteMetadataStore)
    (name data : String) (m now : ℚ) (z : ℤ)
    (hroot : sf.nullRoot = false) :
    ((sq.write name data (some m) now).2.getmtime name
      = .ok (float4Round m)) ∧
    ((sq.write name data none now).2.getmtime name
      = .ok (float4Round now)) ∧
    (float4Round m = m →
      (sq.write name data (some m) now).2.getmtime name = .ok m) ∧
    ((sf.write name data (some m) now).2.getmtime name
      = .ok ((pyTrunc m : ℤ) : ℚ)) ∧
    ((sf.write name data none now).2.getmtime name
      = .ok ((pyTrunc now : ℤ) : ℚ)) ∧
    ((sf.write name data (some (z : ℚ)) now).2.getmtime name
      = .ok ((z : ℤ) : ℚ)) := by
  have hsq : (sq.write name data (some m) now).2.getmtime name
      = .ok (float4Round m) := by
    simp [SqliteMetadataStore.write, SqliteMetadataStore.getmtime,
      Table.lookupName_upsert]
  refine ⟨hsq, ?_, fun h => by rwa [h] at hsq, ?_, ?_, ?_⟩ <;>
    simp [SqliteMetadataStore.write, SqliteMetadataStore.getmtime,
      FilesystemMetadataStore.write, FilesystemMetadataStore.getmtime,
      FilesystemMetadataStore.nullRoot_setFiles, hroot,
      Table.lookupName_upsert, pyTrunc_intCast]

theorem metastore_write_getmtime_witness :
    ((FilesystemMetadataStore.mk (some "c") []).write "a" "d"
        (some ((5 : ℤ) : ℚ)) 0).2.getmtime "a" = .ok ((5 : ℤ) : ℚ) :=
  (metastore_write_getmtime (FilesystemMetadataStore.mk (some "c") [])
    (SqliteMetadataStore.mk []) "a" "d" (3/2) 0 5 rfl).2.2.2.2.2

/-- C6: for both store variants (filesystem with non-null root), a
successful `write(name, data, mtime)` followed by `read(name)` returns
`data` exactly, and `remove(name)` followed by `read(name)` raises
`NotFound`. -/
theorem metastore_roundtrip
    (sf : FilesystemMetadataStore) (sq : SqliteMetadataStore)
    (name data : String) (m : Option ℚ) (now : ℚ)
    (hroot : sf.nullRoot = false) :
    ((sf.write name data m now).1 = true) ∧
    ((sf.write name data m now).2.read name = .ok data) ∧
    ((sq.write name data m now).1 = true) ∧
    ((sq.write name data m now).2.read name = .ok data) ∧
    (∀ sf2, sf.remove name = .ok sf2 → sf2.read name = .error .notFound) ∧
    (∃ sq2, sq.remove name = .ok sq2 ∧ sq2.read name = .error .notFound) := by
  refine ⟨?_, ?_, rfl, ?_, ?_, ?_⟩
  · simp [FilesystemMetadataStore.write, hroot]
  · simp [FilesystemMetadataStore.write, FilesystemMetadataStore.read,
      FilesystemMetadataStore.nullRoot_setFiles, hroot, Table.lookupName_upsert]
  · simp [SqliteMetadataStore.write, SqliteMetadataStore.read,
      Table.lookupName_upsert]
  · intro sf2 hrem
    unfold FilesystemMetadataStore.remove at hrem
    rw [hroot] at hrem
    simp only [Bool.false_eq_true, if_false] at hrem
    rcases hlook : Table.lookupName sf.files name with _ | e <;> rw [hlook] at hrem
    · exact absurd hrem (by simp)
    · cases hrem
      simp [FilesystemMetadataStore.read,
        FilesystemMetadataStore.nullRoot_setFiles, hroot,
        Table.lookupName_eraseName]
  · refine ⟨⟨Table.eraseName sq.files name⟩, rfl, ?_⟩
    simp [SqliteMetadataStore.read, Table.lookupName_eraseName]

theorem metastore_roundtrip_witness :
    ((FilesystemMetadataStore.mk (some "c") []).write "a" "d" none 0).2.read "a" =
      .ok "d" :=
  (metastore_roundtrip (FilesystemMetadataStore.mk (some "c") [])
    (SqliteMetadataStore.mk []) "a" "d" none 0 rfl).2.1

/-- C8: on the filesystem store configured with a null root, `write` returns
`false` and leaves the store unchanged (no entry is created), and `read`,
`getmtime`, and `remove` each raise `NotFound`. -/
theorem fs_nullRoot_behavior
    (s : FilesystemMetadataStore) (name data : String) (m : Option ℚ) (now : ℚ)
    (hnull : s.nullRoot = true) :
    s.write name data m now = (false, s) ∧
    s.read name = .error .notFound ∧
    s.getmtime name = .error .notFound ∧
    s.remove name = .error .notFound := by
  refine ⟨?_, ?_, ?_, ?_⟩ <;>
    simp [FilesystemMetadataStore.write, FilesystemMetadataStore.read,
      FilesystemMetadataStore.getmtime, FilesystemMetadataStore.remove, hnull]

theorem fs_nullRoot_behavior_witness :
    (FilesystemMetadataStore.mk none []).read "a" = .error .notFound :=
  (fs_nullRoot_behavior (FilesystemMetadataStore.mk none []) "a" "d" none 0
    rfl).2.1

/-- C9: the relational store's `write` is an upsert — after two writes to
the same name the store is exactly what the second write alone would have
produced (both the data and the stored mtime of the single entry for that
name are replaced), so `read` returns the second data, `getmtime` the
binary32-stored second mtime, and the table holds exactly one entry for the
name; in particular writing ("m.py", "x", 123.0) then ("m.py", "y", 456.0)
makes `read("m.py")` return "y" and `getmtime("m.py")` return 456.0 (123.0
and 456.0 are float4-exact). -/
theorem sqlite_write_upsert :
    (∀ (s : SqliteMetadataStore) (name d1 d2 : String) (m1 m2 now1 now2 : ℚ),
      ((s.write name d1 (some m1) now1).2.write name d2 (some m2) now2).2
          = (s.write name d2 (some m2) now2).2 ∧
      (((s.write name d1 (some m1) now1).2.write name d2 (some m2) now2).2.read
          name = .ok d2) ∧
      (((s.write name d1 (some m1) now1).2.write name d2 (some m2) now2).2.getmtime
          name = .ok (float4Round m2)) ∧
      (Table.countName
          ((s.write name d1 (some m1) now1).2.write name d2 (some m2)
            now2).2.files name = 1)) ∧
    ((((SqliteMetadataStore.mk []).write "m.py" "x" (some 123) 0).2.write "m.py"
        "y" (some 456) 0).2.read "m.py" = .ok "y") ∧
    ((((SqliteMetadataStore.mk []).write "m.py" "x" (some 123) 0).2.write "m.py"
        "y" (some 456) 0).2.getmtime "m.py" = .ok 456) := by
  have hg : (((SqliteMetadataStore.mk []).write "m.py" "x" (some 123) 0).2.write
      "m.py" "y" (some 456) 0).2.getmtime "m.py" = .ok (float4Round 456) := by
    simp [SqliteMetadataStore.write, SqliteMetadataStore.getmtime,
      Table.lookupName_upsert]
  refine ⟨fun s name d1 d2 m1 m2 now1 now2 => ⟨?_, ?_, ?_, ?_⟩, ?_,
    by rw [hg, float4Round_456]⟩
  · simp [SqliteMetadataStore.write, Table.upsert, Table.eraseName,
      Table.eraseName_idem]
  · simp [SqliteMetadataStore.write, SqliteMetadataStore.read,
      Table.lookupName_upsert]
  · simp [SqliteMetadataStore.write, SqliteMetadataStore.getmtime,
      Table.lookupName_upsert]
  · simp [SqliteMetadataStore.write, Table.countName_upsert]
  · simp [SqliteMetadataStore.write, SqliteMetadataStore.read,
      Table.lookupName_upsert]

/-! ## Theorems: greedy fill -/

theorem getElem_mid {β : Type} :
    ∀ (front : List β) (c : β) (rest : List β),
      (front ++ c :: rest)[front.length]? = some c := by
  intro front
  induction front with
  | nil => intro c rest; simp
  | cons a f ih => intro c rest; simpa using ih c rest

theorem getElem_mid_succ {β : Type} :
    ∀ (front : List β) (c x : β) (rest : List β),
      (front ++ c :: x :: rest)[front.length + 1]? = some x := by
  intro front
  induction front with
  | nil => intro c x rest; simp
  | cons a f ih => intro c x rest; simpa using ih c x rest

theorem set_mid {β : Type} :
    ∀ (front : List β) (c c' : β) (rest : List β),
      (front ++ c :: rest).set front.length c' = front ++ c' :: rest := by
  intro front
  induction front with
  | nil => intro c c' rest; rfl
  | cons a f ih => intro c c' rest; simp [ih c c' rest]

theorem set_mid_succ {β : Type} :
    ∀ (front : List β) (c x b : β) (rest : List β),
      (front ++ c :: x :: rest).set (front.length + 1) b
        = front ++ c :: b :: rest := by
  intro front
  induction front with
  | nil => intro c x b rest; rfl
  | cons a f ih => intro c x b rest; simp [ih c x b rest]

theorem flatten_replicate_nil {β : Type} :
    ∀ (k : Nat), (List.replicate k ([] : List β)).flatten = [] := by
  intro k
  induction k with
  | zero => rfl
  | succ k ih => simp [List.replicate_succ, ih]

theorem length_mul_le_sum :
    ∀ (l : List Nat) (t : Nat), (∀ x ∈ l, t ≤ x) → l.length * t ≤ l.sum := by
  intro l t
  induction l with
  | nil => intro _; simp
  | cons a l ih =>
    intro h
    have ha : t ≤ a := h a (by simp)
    have hl := ih (fun x hx => h x (by simp [hx]))
    calc (a :: l).length * t = l.length * t + t := by
          rw [List.length_cons, Nat.succ_mul]
    _ ≤ l.sum + a := Nat.add_le_add hl ha
    _ = (a :: l).sum := by rw [List.sum_cons, Nat.add_comm]

theorem le_maxCost {α : Type} :
    ∀ (units : List (α × Nat)), ∀ u ∈ units, u.2 ≤ maxCost units := by
  intro units
  induction units with
  | nil => intro u hu; simp at hu
  | cons a l ih =>
    intro u hu
    have hm : maxCost (a :: l) = max a.2 (maxCost l) := rfl
    rcases List.mem_cons.1 hu with h | h
    · rw [hm, h]; exact le_max_left _ _
    · exact le_trans (ih u h) (by rw [hm]; exact le_max_right _ _)

theorem total_le_mul_target {α : Type} (units : List (α × Nat)) (nb : Nat)
    (h : 1 ≤ nb) : (units.map Prod.snd).sum ≤ nb * targetSize units nb := by
  unfold targetSize
  have h1 := Nat.div_add_mod ((units.map Prod.snd).sum + nb - 1) nb
  have h2 : ((units.map Prod.snd).sum + nb - 1) % nb < nb :=
    Nat.mod_lt _ (by omega)
  omega

/-- The invariant of the greedy fill loop: running it from a state
`front ++ c :: (k fresh batches)` at index `front.length`, where every
batch of `front` is filled (cost at least `target`), succeeds on
positive-cost units and yields batches that cover exactly the input
units, in order, with every batch cost bounded by `target + maxc`. -/
theorem fillLoop_ok {α : Type} (target maxc : Nat) :
    ∀ (units : List (α × Nat)) (front : List (List (α × Nat) × Nat))
      (c : List (α × Nat) × Nat) (k : Nat),
      (∀ u ∈ units, 0 < u.2) →
      (∀ u ∈ units, u.2 ≤ maxc) →
      (∀ b ∈ front, target ≤ b.2) →
      (∀ b ∈ front, b.2 ≤ target + maxc) →
      (∀ b ∈ front, b.2 = (b.1.map Prod.snd).sum) →
      c.2 ≤ target + maxc →
      c.2 = (c.1.map Prod.snd).sum →
      (front.map Prod.snd).sum + c.2 + (units.map Prod.snd).sum ≤
        (front.length + 1 + k) * target →
      ∃ out,
        fillLoop target units (front ++ c :: List.replicate k ([], 0))
            front.length = some out ∧
        out.length = front.length + 1 + k ∧
        (out.map Prod.fst).flatten = ((front.map Prod.fst).flatten ++ c.1) ++ units ∧
        (∀ b ∈ out, b.2 ≤ target + maxc) ∧
        (∀ b ∈ out, b.2 = (b.1.map Prod.snd).sum) := by
  intro units
  induction units with
  | nil =>
    intro front c k _ _ _ hfr2 hfr3 hc1 hc2 _
    refine ⟨front ++ c :: List.replicate k ([], 0), rfl, ?_, ?_, ?_, ?_⟩
    · simp [List.length_append]
      omega
    · simp [List.map_append, List.flatten_append, flatten_replicate_nil]
    · intro b hb
      rcases List.mem_append.1 hb with h | h
      · exact hfr2 b h
      · rcases List.mem_cons.1 h with h | h
        · rw [h]; exact hc1
        · rw [List.eq_of_mem_replicate h]
          simp
    · intro b hb
      rcases List.mem_append.1 hb with h | h
      · exact hfr3 b h
      · rcases List.mem_cons.1 h with h | h
        · rw [h]; exact hc2
        · rw [List.eq_of_mem_replicate h]
          simp
  | cons u rest ih =>
    obtain ⟨p, sz⟩ := u
    intro front c k hpos hmax hfr1 hfr2 hfr3 hc1 hc2 hcount
    have hsz0 : 0 < sz := hpos (p, sz) (by simp)
    have hszm : sz ≤ maxc := hmax (p, sz) (by simp)
    have hposr : ∀ v ∈ rest, 0 < v.2 := fun v hv => hpos v (by simp [hv])
    have hmaxr : ∀ v ∈ rest, v.2 ≤ maxc := fun v hv => hmax v (by simp [hv])
    simp only [List.map_cons, List.sum_cons] at hcount
    by_cases hadv : target ≤ c.2
    · rcases k with _ | k'
      · exfalso
        have hallfr : ∀ x ∈ front.map Prod.snd, target ≤ x := by
          intro x hx
          obtain ⟨b, hb, rfl⟩ := List.mem_map.1 hx
          exact hfr1 b hb
        have hfs := length_mul_le_sum (front.map Prod.snd) target hallfr
        rw [List.length_map] at hfs
        have hexp : (front.length + 1 + 0) * target
            = front.length * target + target := by ring
        rw [hexp] at hcount
        omega
      · have hstep :
            fillLoop target ((p, sz) :: rest)
                (front ++ c :: List.replicate (k' + 1) ([], 0)) front.length
              = fillLoop target rest
                ((front ++ [c]) ++ ([(p, sz)], 0 + sz) :: List.replicate k' ([], 0))
                ((front ++ [c]).length) := by
          simp only [List.replicate_succ, fillLoop, getElem_mid, hadv, if_true,
            getElem_mid_succ, set_mid_succ, List.length_append,
            List.length_cons, List.length_nil, List.append_assoc,
            List.cons_append, List.nil_append]
        have hcall := ih (front ++ [c]) ([(p, sz)], 0 + sz) k' hposr hmaxr
          (by
            intro b hb
            rcases List.mem_append.1 hb with h | h
            · exact hfr1 b h
            · rw [List.mem_singleton.1 h]; exact hadv)
          (by
            intro b hb
            rcases List.mem_append.1 hb with h | h
            · exact hfr2 b h
            · rw [List.mem_singleton.1 h]; exact hc1)
          (by
            intro b hb
            rcases List.mem_append.1 hb with h | h
            · exact hfr3 b h
            · rw [List.mem_singleton.1 h]; exact hc2)
          (by simpa using by omega)
          (by simp)
          (by
            simp only [List.map_append, List.sum_append, List.map_cons,
              List.sum_cons, List.map_nil, List.sum_nil, List.length_append,
              List.length_cons, List.length_nil]
            ring_nf at hcount ⊢
            omega)
        obtain ⟨out, hrun, hlen, hjoin, hbd, hcost⟩ := hcall
        refine ⟨out, by rw [hstep]; exact hrun, ?_, ?_, hbd, hcost⟩
        · rw [hlen]; simp; omega
        · rw [hjoin]
          simp [List.map_append, List.flatten_append, List.append_assoc]
    · have hstep :
          fillLoop target ((p, sz) :: rest)
              (front ++ c :: List.replicate k ([], 0)) front.length
            = fillLoop target rest
              (front ++ (c.1 ++ [(p, sz)], c.2 + sz) :: List.replicate k ([], 0))
              front.length := by
        simp only [fillLoop, getElem_mid, hadv, if_false, set_mid]
      have hcall := ih front (c.1 ++ [(p, sz)], c.2 + sz) k hposr hmaxr
        hfr1 hfr2 hfr3
        (by simp only at hc1 ⊢; omega)
        (by simp [hc2])
        (by
          simp only
          have : c.2 + sz + (rest.map Prod.snd).sum
              = c.2 + (sz + (rest.map Prod.snd).sum) := by ring
          omega)
      obtain ⟨out, hrun, hlen, hjoin, hbd, hcost⟩ := hcall
      refine ⟨out, by rw [hstep]; exact hrun, hlen, ?_, hbd, hcost⟩
      rw [hjoin]
      simp [List.append_assoc]

/-- Characterization of `greedy_fill` on positive-cost inputs, obtained by
running `fillLoop_ok` from the initial state (all `num_batches` batches
empty, `append_idx = 0`). -/
theorem greedy_fill_spec {α : Type} (units : List (α × Nat)) (nb : Nat)
    (h1 : 1 ≤ nb) (hpos : ∀ u ∈ units, 0 < u.2) :
    ∃ out, greedy_fill units nb = some out ∧
      out.length = nb ∧
      (out.map Prod.fst).flatten = units ∧
      (∀ b ∈ out, b.2 ≤ targetSize units nb + maxCost units) ∧
      (∀ b ∈ out, b.2 = (b.1.map Prod.snd).sum) := by
  obtain ⟨k, rfl⟩ : ∃ k, nb = k + 1 := ⟨nb - 1, by omega⟩
  have hcount : (([] : List (List (α × Nat) × Nat)).map Prod.snd).sum
      + ((([] : List (α × Nat)), (0 : Nat))).2 + (units.map Prod.snd).sum
      ≤ (([] : List (List (α × Nat) × Nat)).length + 1 + k)
          * targetSize units (k + 1) := by
    have htot := total_le_mul_target units (k + 1) (by omega)
    simp only [List.map_nil, List.sum_nil, List.length_nil]
    have hexp : (0 + 1 + k) * targetSize units (k + 1)
        = (k + 1) * targetSize units (k + 1) := by ring
    omega
  have hmain := fillLoop_ok (targetSize units (k + 1)) (maxCost units) units []
    ([], 0) k hpos (fun u hu => le_maxCost units u hu)
    (by simp) (by simp) (by simp) (by simp) (by simp) hcount
  obtain ⟨out, hrun, hlen, hflat, hbd, hcost⟩ := hmain
  refine ⟨out, ?_, ?_, ?_, hbd, hcost⟩
  · unfold greedy_fill
    rw [List.replicate_succ]
    simpa using hrun
  · simp only [List.length_nil] at hlen
    omega
  · simpa using hflat

/-- C1 counterexample: with one unit of cost 0 and `num_batches = 1`, the
greedy fill crashes — `target = 0`, so the first iteration already advances
`append_idx` past the last batch and `commands[append_idx]` raises
`IndexError` (modelled by `none`).  No batch list is produced at all, so it
is not the case that every unit is assigned to exactly one batch. -/
theorem greedy_fill_zero_cost_crash :
    greedy_fill [(("a" : String), (0 : Nat))] 1 = none := rfl

/-- C1 (amended): for every partition input whose unit costs are all
strictly positive and every `num_batches ≥ 1`, the greedy fill succeeds,
assigns every unit to exactly one batch (the batches concatenate, in input
order, to the unit list), the number of non-empty output batches is at most
`num_batches`, and no batch's total cost exceeds `target` plus the maximum
single-unit cost. -/
theorem greedy_fill_partition {α : Type} (units : List (α × Nat))
    (num_batches : Nat) (h1 : 1 ≤ num_batches)
    (hpos : ∀ u ∈ units, 0 < u.2) :
    ∃ out, greedy_fill units num_batches = some out ∧
      (out.map Prod.fst).flatten = units ∧
      (submitBatches out).length ≤ num_batches ∧
      (∀ b ∈ out, b.2 ≤ targetSize units num_batches + maxCost units ∧
        b.2 = (b.1.map Prod.snd).sum) := by
  obtain ⟨out, hrun, hlen, hflat, hbd, hcost⟩ :=
    greedy_fill_spec units num_batches h1 hpos
  refine ⟨out, hrun, hflat, ?_, fun b hb => ⟨hbd b hb, hcost b hb⟩⟩
  calc (submitBatches out).length ≤ (out.map Prod.fst).length :=
        List.length_filter_le _ _
  _ = num_batches := by rw [List.length_map, hlen]

theorem greedy_fill_partition_witness :
    ∃ out,
      greedy_fill
          [(("a" : String), 50), ("b", 10), ("c", 10), ("d", 10), ("e", 20)] 2
        = some out ∧
      (out.map Prod.fst).flatten
        = [(("a" : String), 50), ("b", 10), ("c", 10), ("d", 10), ("e", 20)] ∧
      (submitBatches out).length ≤ 2 ∧
      (∀ b ∈ out, b.2 ≤
          targetSize
            [(("a" : String), 50), ("b", 10), ("c", 10), ("d", 10), ("e", 20)] 2
          + maxCost
            [(("a" : String), 50), ("b", 10), ("c", 10), ("d", 10), ("e", 20)] ∧
        b.2 = (b.1.map Prod.snd).sum) :=
  greedy_fill_partition _ 2 (by decide) (by decide)

/-- C7: with strictly positive unit costs and `num_batches ≥ 1` the
advancing batch index never runs past the last batch — the fill completes
without reaching the out-of-range branch — while with zero-cost units it
can: on `[("a",0), ("b",0)]` with 2 batches the index runs past the end and
the fill crashes. -/
theorem greedy_fill_index_safe :
    (∀ (units : List (String × Nat)) (num_batches : Nat), 1 ≤ num_batches →
        (∀ u ∈ units, 0 < u.2) →
        (greedy_fill units num_batches).isSome = true) ∧
    greedy_fill [(("a" : String), 0), ("b", 0)] 2 = none := by
  constructor
  · intro units nb h1 hpos
    obtain ⟨out, hrun, -⟩ := greedy_fill_spec units nb h1 hpos
    rw [hrun]
    rfl
  · rfl

theorem greedy_fill_index_safe_witness :
    (greedy_fill [(("x" : String), 5)] 1).isSome = true :=
  greedy_fill_index_safe.1 [("x", 5)] 1 (by decide) (by decide)

/-- C5 counterexample: the `mypy-pre.py` flush requests `num_procs = 8`
batches regardless of how many units are partitioned; with a single unit the
claimed value `min(configured_max_workers, len(units)) = min(8, 1) = 1`
differs from the 8 the code uses. -/
theorem mypy_pre_num_procs_not_min :
    mypy_pre_num_procs 1 = 8 ∧ mypy_pre_num_procs 1 ≠ min 8 1 := by
  constructor
  · rfl
  · decide

/-- C5 (amended): in `process_layer` (`mypy_pre2.py`) the number of batches
requested from the partitioner equals `min(16, number of units)`, 16 being
that variant's configured maximum worker count; in the single-flush
`mypy-pre.py` variant it is the constant 8, independent of the number of
units. -/
theorem num_procs_amended :
    (∀ n : Nat, process_layer_num_procs n = min 16 n) ∧
    (∀ n : Nat, mypy_pre_num_procs n = 8) :=
  ⟨fun _ => rfl, fun _ => rfl⟩

/-! ## Theorems: accumulating scheduler -/

theorem unionList_cons {α : Type} [DecidableEq α] (s : Finset α)
    (l : List (Finset α)) : unionList (s :: l) = s ∪ unionList l :=
  rfl

theorem subset_unionList {α : Type} [DecidableEq α] :
    ∀ (l : List (Finset α)) (f : Finset α), f ∈ l → f ⊆ unionList l := by
  intro l
  induction l with
  | nil => intro f hf; simp at hf
  | cons s l ih =>
    intro f hf
    rcases List.mem_cons.1 hf with h | h
    · rw [unionList_cons, h]
      exact Finset.subset_union_left
    · rw [unionList_cons]
      exact (ih f h).trans Finset.subset_union_right

theorem disjoint_unionList {α : Type} [DecidableEq α] :
    ∀ (l : List (Finset α)) (s : Finset α), (∀ f ∈ l, Disjoint s f) →
      Disjoint s (unionList l) := by
  intro l
  induction l with
  | nil => intro s _; simp [unionList]
  | cons f l ih =>
    intro s h
    rw [unionList_cons]
    exact Finset.disjoint_union_right.2
      ⟨h f (by simp), ih s (fun g hg => h g (by simp [hg]))⟩

theorem accumLoop_unionList {α : Type} [DecidableEq α] (threshold : Nat) :
    ∀ (layers : List (Finset α)) (pending : Finset α),
      unionList (accumLoop threshold layers pending)
        = pending ∪ unionList layers := by
  intro layers
  induction layers with
  | nil =>
    intro pending
    by_cases h : pending = ∅ <;> simp [accumLoop, h, unionList]
  | cons layer rest ih =>
    intro pending
    by_cases h : threshold ≤ (pending ∪ layer).card
    · simp only [accumLoop, if_pos h, unionList_cons, ih ∅]
      ext x
      simp [unionList_cons]
    · simp only [accumLoop, if_neg h, ih (pending ∪ layer)]
      ext x
      simp [unionList_cons]

theorem accumLoop_disjoint {α : Type} [DecidableEq α] (threshold : Nat) :
    ∀ (layers : List (Finset α)) (pending : Finset α),
      List.Pairwise Disjoint layers →
      (∀ l ∈ layers, Disjoint pending l) →
      List.Pairwise Disjoint (accumLoop threshold layers pending) := by
  intro layers
  induction layers with
  | nil =>
    intro pending _ _
    by_cases h : pending = ∅ <;> simp [accumLoop, h]
  | cons layer rest ih =>
    intro pending hpw hpd
    have hlr : ∀ l ∈ rest, Disjoint layer l := (List.pairwise_cons.1 hpw).1
    have hrest : List.Pairwise Disjoint rest := (List.pairwise_cons.1 hpw).2
    have hpdr : ∀ l ∈ rest, Disjoint pending l := fun l hl => hpd l (by simp [hl])
    by_cases h : threshold ≤ (pending ∪ layer).card
    · simp only [accumLoop, if_pos h]
      rw [List.pairwise_cons]
      constructor
      · intro g hg
        have hsub : g ⊆ unionList rest := by
          have hm := subset_unionList _ g hg
          rwa [accumLoop_unionList, Finset.empty_union] at hm
        have hdisj : Disjoint (pending ∪ layer) (unionList rest) :=
          Finset.disjoint_union_left.2
            ⟨disjoint_unionList rest pending hpdr, disjoint_unionList rest layer hlr⟩
        exact hdisj.mono_right hsub
      · exact ih ∅ hrest (fun l _ => Finset.disjoint_empty_left l)
    · simp only [accumLoop, if_neg h]
      exact ih (pending ∪ layer) hrest
        (fun l hl => Finset.disjoint_union_left.2 ⟨hpdr l hl, hlr l hl⟩)

theorem accumLoop_nonempty {α : Type} [DecidableEq α] (threshold : Nat)
    (h1 : 1 ≤ threshold) :
    ∀ (layers : List (Finset α)) (pending : Finset α),
      ∀ f ∈ accumLoop threshold layers pending, f.Nonempty := by
  intro layers
  induction layers with
  | nil =>
    intro pending f hf
    by_cases h : pending = ∅
    · simp [accumLoop, h] at hf
    · simp [accumLoop, h] at hf
      rw [hf]
      exact Finset.nonempty_iff_ne_empty.2 h
  | cons layer rest ih =>
    intro pending f hf
    by_cases h : threshold ≤ (pending ∪ layer).card
    · simp only [accumLoop, if_pos h] at hf
      rcases List.mem_cons.1 hf with hf | hf
      · rw [hf]
        exact Finset.card_pos.1 (by omega)
      · exact ih ∅ f hf
    · simp only [accumLoop, if_neg h] at hf
      exact ih (pending ∪ layer) f hf

theorem accumLoop_threshold_reached {α : Type} [DecidableEq α] (threshold : Nat) :
    ∀ (layers : List (Finset α)) (pending : Finset α) (i : Nat) (f : Finset α),
      i + 1 < (accumLoop threshold layers pending).length →
      (accumLoop threshold layers pending)[i]? = some f →
      threshold ≤ f.card := by
  intro layers
  induction layers with
  | nil =>
    intro pending i f hi _
    by_cases h : pending = ∅ <;> simp [accumLoop, h] at hi
  | cons layer rest ih =>
    intro pending i f hi hf
    by_cases h : threshold ≤ (pending ∪ layer).card
    · simp only [accumLoop, if_pos h] at hi hf
      rcases i with _ | j
      · rw [List.getElem?_cons_zero] at hf
        cases hf
        exact h
      · rw [List.getElem?_cons_succ] at hf
        rw [List.length_cons] at hi
        exact ih ∅ j f (by omega) hf
    · simp only [accumLoop, if_neg h] at hi hf
      exact ih (pending ∪ layer) i f hi hf

/-- C4: the accumulating scheduler walks the layers in order, unioning each
layer into the pending set; with the default threshold 16 it flushes exactly
when the pending count has reached the threshold (every flush except
possibly the last has at least 16 units), clears the pending set after each
flush, performs a final flush exactly when something is pending (every
flush, the last included, is non-empty), and — layers being pairwise
disjoint, as the layering engine guarantees — dispatches every pending unit
in exactly one flush (the flushes are pairwise disjoint and their union is
the union of the layers). -/
theorem accumulating_scheduler_flushes {α : Type} [DecidableEq α]
    (layers : List (Finset α)) (hdisj : List.Pairwise Disjoint layers) :
    unionList (accumLoop accumulationThreshold layers ∅) = unionList layers ∧
    List.Pairwise Disjoint (accumLoop accumulationThreshold layers ∅) ∧
    (∀ f ∈ accumLoop accumulationThreshold layers ∅, f.Nonempty) ∧
    (∀ (i : Nat) (f : Finset α),
      i + 1 < (accumLoop accumulationThreshold layers ∅).length →
      (accumLoop accumulationThreshold layers ∅)[i]? = some f →
      accumulationThreshold ≤ f.card) := by
  refine ⟨?_, ?_, ?_, ?_⟩
  · rw [accumLoop_unionList]
    exact Finset.empty_union _
  · exact accumLoop_disjoint accumulationThreshold layers ∅ hdisj
      (fun l _ => Finset.disjoint_empty_left l)
  · exact accumLoop_nonempty accumulationThreshold (by decide) layers ∅
  · exact fun i f hi hf =>
      accumLoop_threshold_reached accumulationThreshold layers ∅ i f hi hf

theorem accumulating_scheduler_flushes_witness :
    unionList (accumLoop accumulationThreshold [({1} : Finset ℕ), {2}] ∅)
      = unionList [({1} : Finset ℕ), {2}] :=
  (accumulating_scheduler_flushes [({1} : Finset ℕ), {2}] (by decide)).1

/-! ## Theorems: dependency-agnostic chunking -/

theorem chunkBound_zero (len n : Nat) : chunkBound len n 0 = 0 := by
  simp [chunkBound]

theorem chunkBound_mono (len n i : Nat) :
    chunkBound len n i ≤ chunkBound len n (i + 1) := by
  unfold chunkBound
  have h : i * (len / n) ≤ (i + 1) * (len / n) :=
    Nat.mul_le_mul_right _ (by omega)
  omega

theorem chunkBound_last (len n : Nat) (h : 1 ≤ n) : chunkBound len n n = len := by
  unfold chunkBound
  have h1 := Nat.div_add_mod len n
  have h2 : len % n < n := Nat.mod_lt _ (by omega)
  omega

theorem flatten_slices {β : Type} :
    ∀ (n : Nat) (b : List β) (g : Nat → Nat),
      g 0 = 0 → (∀ i, i < n → g i ≤ g (i + 1)) →
      ((List.range n).map
          (fun i => (b.drop (g i)).take (g (i + 1) - g i))).flatten
        = b.take (g n) := by
  intro n
  induction n with
  | zero => intro b g h0 _; simp [h0]
  | succ n ih =>
    intro b g h0 hmono
    rw [List.range_succ, List.map_append, List.flatten_append]
    rw [ih b g h0 (fun i hi => hmono i (by omega))]
    simp only [List.map_cons, List.map_nil, List.flatten_cons,
      List.flatten_nil, List.append_nil]
    rw [← List.take_add]
    congr 1
    have := hmono n (by omega)
    omega

theorem chunk_length {α : Type} (b : List α) (n : Nat) (hn : 1 ≤ n) :
    ∀ c ∈ chunk_array b n,
      c.length = b.length / n ∨ c.length = b.length / n + 1 := by
  intro c hc
  obtain ⟨i, hi, rfl⟩ := List.mem_map.1 hc
  have hi' : i < n := List.mem_range.1 hi
  rw [List.length_take, List.length_drop]
  have hle : chunkBound b.length n (i + 1) ≤ b.length := by
    unfold chunkBound
    have h1 := Nat.div_add_mod b.length n
    have h2 : b.length % n < n := Nat.mod_lt _ (by omega)
    have h3 : (i + 1) * (b.length / n) ≤ n * (b.length / n) :=
      Nat.mul_le_mul_right _ (by omega)
    omega
  have hmono := chunkBound_mono b.length n i
  have hdiff : chunkBound b.length n (i + 1) - chunkBound b.length n i
        = b.length / n ∨
      chunkBound b.length n (i + 1) - chunkBound b.length n i
        = b.length / n + 1 := by
    by_cases hcase : i < b.length % n
    · right
      unfold chunkBound
      generalize b.length / n = q
      generalize b.length % n = r at hcase ⊢
      have hexp : (i + 1) * q = i * q + q := by ring
      rw [Nat.min_eq_left (by omega), Nat.min_eq_left (by omega)]
      omega
    · left
      unfold chunkBound
      generalize b.length / n = q
      generalize b.length % n = r at hcase ⊢
      have hexp : (i + 1) * q = i * q + q := by ring
      rw [Nat.min_eq_right (by omega), Nat.min_eq_right (by omega)]
      omega
  rcases hdiff with h | h
  · left; omega
  · right; omega

/-- C10: in the dependency-agnostic mode, for a non-empty input and
`n ≥ 1`, `chunk_array` over the shuffled list `b` (any permutation of the
input) returns exactly `n` contiguous chunks whose concatenation is `b`
itself — so each input element is scheduled exactly once, the concatenation
being a permutation of the input — and any two chunk lengths differ by at
most one. -/
theorem chunk_array_spec {α : Type} (array b : List α) (n : Nat)
    (_hne : array ≠ []) (hn : 1 ≤ n) (hperm : b.Perm array) :
    (chunk_array b n).length = n ∧
    (chunk_array b n).flatten = b ∧
    ((chunk_array b n).flatten).Perm array ∧
    (∀ c1 ∈ chunk_array b n, ∀ c2 ∈ chunk_array b n,
      c1.length ≤ c2.length + 1) := by
  have hflat : (chunk_array b n).flatten = b := by
    unfold chunk_array
    rw [flatten_slices n b (chunkBound b.length n) (chunkBound_zero _ _)
      (fun i _ => chunkBound_mono b.length n i)]
    rw [chunkBound_last _ _ hn, List.take_length]
  refine ⟨?_, hflat, ?_, ?_⟩
  · simp [chunk_array]
  · rw [hflat]
    exact hperm
  · intro c1 hc1 c2 hc2
    rcases chunk_length b n hn c1 hc1 with h1 | h1 <;>
      rcases chunk_length b n hn c2 hc2 with h2 | h2 <;> omega

theorem chunk_array_spec_witness :
    (chunk_array [(3 : ℕ), 1, 2] 2).length = 2 ∧
    (chunk_array [(3 : ℕ), 1, 2] 2).flatten = [3, 1, 2] ∧
    ((chunk_array [(3 : ℕ), 1, 2] 2).flatten).Perm [1, 2, 3] ∧
    (∀ c1 ∈ chunk_array [(3 : ℕ), 1, 2] 2,
      ∀ c2 ∈ chunk_array [(3 : ℕ), 1, 2] 2, c1.length ≤ c2.length + 1) :=
  chunk_array_spec [1, 2, 3] [3, 1, 2] 2 (by decide) (by decide) (by decide)

end MypySpec
